import Mathlib

/-!
# BlockChat: a shallow embedding of the core data model in Lean 4

This file embeds the core data model and operations of the `block_chat`
repository (a proof-of-stake blockchain chat/payment system written in Rust)
and proves properties of them.

Conventions of the embedding:

* Rust machine integers (`u32`, `u64`, `usize` on a 64-bit target) are
  modelled as `Nat`.  Wherever the Rust code performs arithmetic that can
  overflow, the release-profile semantics (two's-complement wrap-around)
  is made explicit with `% 2^32` resp. `% 2^64`.  Checked operations
  (`checked_sub`, explicit comparisons) are translated as the exact
  `Nat` operations they implement.
* Fallible Rust code returns `Except`; code that can `panic!`
  (`unwrap()` on `None`, `%` by zero, out-of-bounds indexing) is modelled
  with `Option`, `none` standing for the panic.
* In-place mutation through `&mut` references is modelled by explicit
  state passing: a method mutating `self` becomes a function returning the
  updated value.
* RSA public keys are identified with an abstract `Nat` (only their
  identity matters to the embedded code); SHA-256 hashes and signatures
  are abstracted by parameters (see `VEnv` below), since the hash/RSA
  primitives come from external crates, not from this repository.
-/

/-- `2^32`, the modulus of Rust `u32` arithmetic. -/
def U32 : Nat := 4294967296

/-- `2^64`, the modulus of Rust `u64` / 64-bit `usize` arithmetic. -/
def U64 : Nat := 18446744073709551616

/-- Wrapping `u32` addition (Rust release-profile `+` on `u32`). -/
def u32add (a b : Nat) : Nat := (a + b) % U32

/-- Wrapping `u32` subtraction (Rust release-profile `-` on `u32`);
for `a b < U32` this equals `a - b` modulo `2^32`. -/
def u32sub (a b : Nat) : Nat := (a % U32 + U32 - b % U32) % U32

/-- Wrapping `u32` multiplication (Rust release-profile `*` on `u32`). -/
def u32mul (a b : Nat) : Nat := a * b % U32

/- ## Protocol constants (src/protocol.rs, src/blockchain/block.rs) -/

def CENTS_PER_COIN : Nat := 100

def TRANSFER_FEE_PERCENTAGE : Nat := 3

def MESSAGE_FEE_PER_CHARACTER_CENTS : Nat := CENTS_PER_COIN

def MINIMUM_TRANSFER_FEE_CENTS : Nat := 1

def BLOCK_CAPACITY : Nat := 5

/- ## Nonce pool (src/account.rs)

A `NoncePool` is a circular buffer tracking the nonces used by an account.
`BUF_LEN = 32`.  The Rust `buf: [bool; BUF_LEN]` array is modelled as a
function `Nat → Bool` (only indices `< 32` are ever read). -/

def BUF_LEN : Nat := 32

structure NoncePool where
  iter : Nat
  buf_end : Nat
  buf : Nat → Bool

namespace NoncePool

/-- `NoncePool::new()` / `Default::default()`. -/
def new : NoncePool := ⟨0, 0, fun _ => false⟩

/-- `buf[i] = b` on the modelled array. -/
def setBuf (f : Nat → Bool) (i : Nat) (b : Bool) : Nat → Bool :=
  fun j => if j = i then b else f j

/-- `for i in lo..hi { buf[i] = false }` on the modelled array. -/
def clearRange (f : Nat → Bool) (lo hi : Nat) : Nat → Bool :=
  fun j => if lo ≤ j ∧ j < hi then false else f j

/-- `NoncePool::next`: `(self.iter * BUF_LEN + self.buf_end) as u64`.
The `usize` multiplication and addition wrap around `2^64` on the 64-bit
target (release profile). -/
def next (p : NoncePool) : Nat :=
  (p.iter * BUF_LEN + p.buf_end) % U64

/-- `NoncePool::mark_used`, translated branch by branch.  The two
`checked_sub(1).is_some_and(..)` guards become `1 ≤ iter ∧ ..`. -/
def mark_used (p : NoncePool) (nonce : Nat) : NoncePool :=
  let nonce_iter := nonce / BUF_LEN
  let nonce_index := nonce % BUF_LEN
  -- nonce_iter < self.iter - 1
  if 1 ≤ p.iter ∧ nonce_iter < p.iter - 1 then p
  -- nonce_iter == self.iter - 1
  else if 1 ≤ p.iter ∧ nonce_iter = p.iter - 1 then
    if nonce_index < p.buf_end then p
    else { p with buf := setBuf p.buf nonce_index true }
  else if nonce_iter = p.iter then
    if nonce_index < p.buf_end then
      { p with buf := setBuf p.buf nonce_index true }
    else
      let buf' := setBuf (clearRange p.buf p.buf_end nonce_index) nonce_index true
      let be' := (nonce_index + 1) % BUF_LEN
      { iter := if be' = 0 then p.iter + 1 else p.iter, buf_end := be', buf := buf' }
  else if nonce_iter = p.iter + 1 then
    let buf' := setBuf (clearRange (clearRange p.buf p.buf_end BUF_LEN) 0 nonce_index)
      nonce_index true
    let be' := (nonce_index + 1) % BUF_LEN
    { iter := if be' = 0 then nonce_iter + 1 else nonce_iter, buf_end := be', buf := buf' }
  else if nonce_iter > p.iter + 1 then
    let buf' := setBuf (fun _ => false) nonce_index true
    let be' := (nonce_index + 1) % BUF_LEN
    { iter := if be' = 0 then nonce_iter + 1 else nonce_iter, buf_end := be', buf := buf' }
  else p

/-- `NoncePool::is_marked_used`, translated branch by branch. -/
def is_marked_used (p : NoncePool) (nonce : Nat) : Bool :=
  let nonce_iter := nonce / BUF_LEN
  let nonce_index := nonce % BUF_LEN
  if 1 ≤ p.iter ∧ nonce_iter < p.iter - 1 then true
  else if 1 ≤ p.iter ∧ nonce_iter = p.iter - 1 then
    decide (nonce_index < p.buf_end) || p.buf nonce_index
  else if nonce_iter = p.iter then
    decide (nonce_index < p.buf_end) && p.buf nonce_index
  else false

end NoncePool

/- ## Accounts (src/account.rs) -/

/-- `AccountError` (src/account.rs). -/
inductive AccountError where
  | InsufficientFunds (missing : Nat)
deriving Repr, DecidableEq

/-- `Account` (src/account.rs).  `held_cents`/`staked_cents` are `u32`,
`id` is `u32`. -/
structure Account where
  id : Nat
  nonce_pool : NoncePool
  held_cents : Nat
  staked_cents : Nat

namespace Account

/-- `Account::add_held`: `self.held_cents += amnt` (wraps in release). -/
def add_held (a : Account) (amnt : Nat) : Account :=
  { a with held_cents := u32add a.held_cents amnt }

/-- `Account::sub_held`: checked subtraction; on success the updated
account, on failure `InsufficientFunds(amnt - held_cents)` and the
account is left unchanged by the caller. -/
def sub_held (a : Account) (amnt : Nat) : Except AccountError Account :=
  if amnt > a.held_cents then
    .error (.InsufficientFunds (amnt - a.held_cents))
  else
    .ok { a with held_cents := a.held_cents - amnt }

/-- `Account::add_staked`: `self.staked_cents += amnt` (wraps in release). -/
def add_staked (a : Account) (amnt : Nat) : Account :=
  { a with staked_cents := u32add a.staked_cents amnt }

end Account

/- ## Transactions (src/blockchain/transaction.rs) -/

/-- A public RSA key, abstracted to its identity. -/
def PublicKey := Nat

instance : DecidableEq PublicKey := inferInstanceAs (DecidableEq Nat)

instance : Inhabited PublicKey := inferInstanceAs (Inhabited Nat)

/-- `TransactionPayload`.  `Transfer`/`Stake` hold a `NonZeroU32` (so a
well-formed value satisfies `0 < amnt < 2^32`); `Message` holds a
`NonEmptyString`. -/
inductive TransactionPayload where
  | Transfer (amnt : Nat)
  | Message (msg : String)
  | Stake (amnt : Nat)

namespace TransactionPayload

/-- `matches!(payload, TransactionPayload::Stake(_))`. -/
def isStake : TransactionPayload → Bool
  | .Stake _ => true
  | _ => false

/-- Well-formedness imposed by the Rust types: amounts are `NonZeroU32`,
messages are `NonEmptyString`. -/
def WF : TransactionPayload → Prop
  | .Transfer a => 0 < a ∧ a < U32
  | .Message s => s ≠ ""
  | .Stake a => 0 < a ∧ a < U32

end TransactionPayload

/-- `Transaction`.  The 32-byte hash and the signature bytes are
abstracted to `Nat` resp. `List Nat`. -/
structure Transaction where
  payload : TransactionPayload
  sndr_addr : Option PublicKey
  recp_addr : Option PublicKey
  nonce : Nat
  hash : Nat
  sig : Option (List Nat)

namespace Transaction

/-- `Transaction::calculate_transfer_fees`:
`amnt * TRANSFER_FEE_PERCENTAGE / 100`, the `u32` multiplication
wrapping in release, then the minimum fee applied. -/
def calculate_transfer_fees (amnt : Nat) : Nat :=
  let fee := u32mul amnt TRANSFER_FEE_PERCENTAGE / 100
  if fee < MINIMUM_TRANSFER_FEE_CENTS then MINIMUM_TRANSFER_FEE_CENTS else fee

/-- `Transaction::calculate_message_fees`:
`msg.len() as u32 * MESSAGE_FEE_PER_CHARACTER_CENTS`; `msg.len()` is the
UTF-8 byte length, the cast truncates mod `2^32`, the multiplication
wraps in release. -/
def calculate_message_fees (msg : String) : Nat :=
  u32mul (msg.utf8ByteSize % U32) MESSAGE_FEE_PER_CHARACTER_CENTS

/-- `Transaction::calculcate_stake_fees` (sic): always 0. -/
def calculcate_stake_fees (_amnt : Nat) : Nat := 0

/-- `Transaction::calculate_transfer_total_cost`:
`amnt + calculate_transfer_fees(amnt)` (`u32` addition, wraps in release). -/
def calculate_transfer_total_cost (amnt : Nat) : Nat :=
  u32add amnt (calculate_transfer_fees amnt)

/-- `Transaction::calculate_message_total_cost`:
`msg.len() as u32 + calculate_message_fees(msg)`. -/
def calculate_message_total_cost (msg : String) : Nat :=
  u32add (msg.utf8ByteSize % U32) (calculate_message_fees msg)

/-- `Transaction::calculate_stake_total_cost`: the staked amount itself. -/
def calculate_stake_total_cost (amnt : Nat) : Nat := amnt

/-- `Transaction::fees`. -/
def fees (tsx : Transaction) : Nat :=
  match tsx.payload with
  | .Transfer amnt => calculate_transfer_fees amnt
  | .Message msg => calculate_message_fees msg
  | .Stake amnt => calculcate_stake_fees amnt

/-- `Transaction::total_cost`. -/
def total_cost (tsx : Transaction) : Nat :=
  match tsx.payload with
  | .Transfer amnt => calculate_transfer_total_cost amnt
  | .Message msg => calculate_message_total_cost msg
  | .Stake amnt => calculate_stake_total_cost amnt

end Transaction

/- ## Peers catalog (src/peer/peers_catalog.rs)

Peers are kept in a vector sorted by id, with the invariant that a peer's
`id` equals its vector index; the auxiliary `HashMap` from public key to
index is modelled by list lookup (keys are unique, enforced by
`insert`). -/

structure Peer where
  id : Nat
  publ_key : PublicKey

/-- `PeersCatalog::get_by_publ_key` on the peers vector. -/
def peersGetByPublKey (peers : List Peer) (k : PublicKey) : Option Peer :=
  peers.find? (fun p => p.publ_key == k)

/- ## Accounts catalog (src/account/accounts_catalog.rs) -/

/-- `AccountsCatalogError`. -/
structure AccountsCatalogError where
  account_id : Nat
  error : AccountError
deriving Repr, DecidableEq

/-- `AccountsCatalog`: the accounts vector plus the referenced peers
catalog. -/
structure AccountsCatalog where
  accounts : List Account
  peers : List Peer

namespace AccountsCatalog

/-- `AccountsCatalog::get_by_id`: `self.accounts.get(id as usize)`. -/
def get_by_id (cat : AccountsCatalog) (id : Nat) : Option Account :=
  cat.accounts.get? id

/-- `AccountsCatalog::get_by_publ_key(_mut)`: resolve the key through the
peers catalog, then index the accounts vector with the peer id.  The
returned index is the model of the `&mut Account` reference: writing the
account back happens at that index. -/
def lookup (cat : AccountsCatalog) (k : PublicKey) : Option (Nat × Account) :=
  match peersGetByPublKey cat.peers k with
  | none => none
  | some p => (cat.get_by_id p.id).map (fun a => (p.id, a))

/-- Write an account back through its modelled `&mut` reference. -/
def setAccount (cat : AccountsCatalog) (i : Nat) (a : Account) : AccountsCatalog :=
  { cat with accounts := cat.accounts.set i a }

/-- The recipient half of `AccountsCatalog::process_transaction`:
`if let Some(addr) = tsx.recp_addr() { ... }`.  `none` models the
`unwrap()` panic on an unresolvable key. -/
def process_recipient (cat : AccountsCatalog) (tsx : Transaction) :
    Option (Except AccountsCatalogError Unit × AccountsCatalog) :=
  match tsx.recp_addr with
  | none => some (.ok (), cat)
  | some addr =>
    match cat.lookup addr with
    | none => none
    | some (j, recp) =>
      some (.ok (), cat.setAccount j (recp.add_held (u32sub tsx.total_cost tsx.fees)))

/-- `AccountsCatalog::process_transaction`.  The pair returned models the
Rust `(Result, state of &mut self)`: on `Err` the catalog component is
the caller's unchanged catalog. -/
def process_transaction (cat : AccountsCatalog) (tsx : Transaction) :
    Option (Except AccountsCatalogError Unit × AccountsCatalog) :=
  match tsx.sndr_addr with
  | none => cat.process_recipient tsx
  | some addr =>
    match cat.lookup addr with
    | none => none
    | some (i, sndr) =>
      match sndr.sub_held tsx.total_cost with
      | .error e => some (.error ⟨sndr.id, e⟩, cat)
      | .ok sndr1 =>
        let sndr2 := if tsx.payload.isStake
          then sndr1.add_staked (u32sub tsx.total_cost tsx.fees) else sndr1
        let sndr3 := { sndr2 with nonce_pool := sndr2.nonce_pool.mark_used tsx.nonce }
        (cat.setAccount i sndr3).process_recipient tsx

end AccountsCatalog

/- ## Blocks (src/blockchain/block.rs) -/

/-- `Block`.  Hashes are abstracted to `Nat`. -/
structure Block where
  index : Nat
  timestamp : Nat
  tsxs : List Transaction
  val : Option PublicKey
  prev_hash : Nat
  hash : Nat

namespace AccountsCatalog

/-- The loop body of `AccountsCatalog::process_block`, running on the
working copy: process each transaction, then credit its fees to the
block's validator (when present). -/
def process_block_go (val : Option PublicKey) (cat : AccountsCatalog) :
    List Transaction → Option (Except AccountsCatalogError AccountsCatalog)
  | [] => some (.ok cat)
  | tsx :: rest =>
    match cat.process_transaction tsx with
    | none => none
    | some (.error e, _) => some (.error e)
    | some (.ok _, cat1) =>
      match val with
      | none => process_block_go val cat1 rest
      | some v =>
        match cat1.lookup v with
        | none => none
        | some (j, a) => process_block_go val (cat1.setAccount j (a.add_held tsx.fees)) rest

/-- `AccountsCatalog::process_block`: run on a clone (`self_clone`), and
only on full success assign the clone back to `self`; on any failure the
original catalog is returned untouched. -/
def process_block (cat : AccountsCatalog) (blk : Block) :
    Option (Except AccountsCatalogError Unit × AccountsCatalog) :=
  match process_block_go blk.val cat blk.tsxs with
  | none => none
  | some (.error e) => some (.error e, cat)
  | some (.ok cat') => some (.ok (), cat')

end AccountsCatalog

/- ## Specification-side descriptions (written from the spec's words)

These definitions restate, in the spec's own field-update vocabulary, the
effects that §4.4 of the specification attributes to
`process_transaction` / `process_block`.  They are compared with the
source-translated functions above by the refinement theorems below. -/

namespace AccountsCatalog

/-- Spec §4.4, sender effects: debit `total_cost` from held; if Stake,
credit `total_cost − fees` to staked; mark the sender nonce used. -/
def spec_sender_effects (tsx : Transaction) (s : Account) : Account :=
  { s with
    held_cents := s.held_cents - tsx.total_cost
    staked_cents :=
      if tsx.payload.isStake
        then u32add s.staked_cents (u32sub tsx.total_cost tsx.fees)
        else s.staked_cents
    nonce_pool := s.nonce_pool.mark_used tsx.nonce }

/-- Spec §4.4, recipient effect: credit `total_cost − fees` to the
recipient's held cents iff a recipient is present (Stake has none). -/
def spec_recipient_effects (cat : AccountsCatalog) (tsx : Transaction) :
    Option (Except AccountsCatalogError Unit × AccountsCatalog) :=
  match tsx.recp_addr with
  | none => some (.ok (), cat)
  | some addr =>
    match cat.lookup addr with
    | none => none
    | some (j, r) =>
      some (.ok (),
        cat.setAccount j
          { r with held_cents := u32add r.held_cents (u32sub tsx.total_cost tsx.fees) })

/-- Spec §4.4: `process_transaction` as the specification describes it —
genesis transactions (no sender) skip all sender effects; if the debit
fails, `Err{account_id, InsufficientFunds}` is returned and the catalog
is unchanged; otherwise the sender effects followed by the recipient
effect are applied. -/
def spec_process_transaction (cat : AccountsCatalog) (tsx : Transaction) :
    Option (Except AccountsCatalogError Unit × AccountsCatalog) :=
  match tsx.sndr_addr with
  | none => cat.spec_recipient_effects tsx
  | some addr =>
    match cat.lookup addr with
    | none => none
    | some (i, s) =>
      if tsx.total_cost > s.held_cents then
        some (.error ⟨s.id, .InsufficientFunds (tsx.total_cost - s.held_cents)⟩, cat)
      else
        (cat.setAccount i (spec_sender_effects tsx s)).spec_recipient_effects tsx

/-- Spec §4.4: the combined effects of a block — each transaction's
effects as described by the spec, each followed by crediting the
transaction's fees to the block validator's held cents (when a validator
is present). -/
def spec_block_effects (val : Option PublicKey) (cat : AccountsCatalog) :
    List Transaction → Option (Except AccountsCatalogError AccountsCatalog)
  | [] => some (.ok cat)
  | tsx :: rest =>
    match cat.spec_process_transaction tsx with
    | none => none
    | some (.error e, _) => some (.error e)
    | some (.ok _, cat1) =>
      match val with
      | none => spec_block_effects val cat1 rest
      | some v =>
        match cat1.lookup v with
        | none => none
        | some (j, a) =>
          spec_block_effects val
            (cat1.setAccount j { a with held_cents := u32add a.held_cents tsx.fees }) rest

end AccountsCatalog

/- ## Proof of stake (src/protocol.rs, `Protocol::proof_of_stake`)

The election reads the hard-accounts snapshot (the accounts vector, in
ascending id order) and the last block's 32-byte hash.  The only use of
randomness is `ChaCha12Rng::from_seed(*seed)` followed by a single
`next_u32()` call; `ChaCha12Rng` (crate `rand_chacha`) is a fixed, pure
algorithm, so the composite "seed then draw once" is modelled by an
explicit function parameter `next_u32 : Hash → Nat` whose values are
`u32`s.  Two nodes running the same build share this function. -/

/-- A 32-byte hash, abstracted. -/
def Hash := List Nat

/-- `fn calculate_tickets(staked_cents: u32) -> u32 { staked_cents }`. -/
def calculate_tickets (staked_cents : Nat) : Nat := staked_cents

/-- The `find` in the `stake_sum > 0` arm: walk the accounts
accumulating `acc += calculate_tickets(..)` (a wrapping `u32` addition)
and return the first account with `acc > winning_ticket`. -/
def pos_find (winning_ticket : Nat) (acc : Nat) : List Account → Option Account
  | [] => none
  | a :: rest =>
    let acc' := u32add acc (calculate_tickets a.staked_cents)
    if acc' > winning_ticket then some a else pos_find winning_ticket acc' rest

/-- `Protocol::proof_of_stake` (memoization dropped — it caches exactly
this value).  `none` models the panics: `% 0` and the `unwrap()` of a
failed `find` (neither is reachable, as proved below).  `.sum::<u32>()`
and `len() as u32` wrap mod `2^32` in release. -/
def proof_of_stake (next_u32 : Hash → Nat) (hard_accounts : List Account)
    (last_hash : Hash) : Option Nat :=
  let stake_sum := hard_accounts.foldl (fun s a => u32add s (calculate_tickets a.staked_cents)) 0
  let tickets := if stake_sum = 0 then hard_accounts.length % U32 else stake_sum
  if tickets = 0 then none
  else
    let winning_ticket := next_u32 last_hash % tickets
    if stake_sum = 0 then
      (hard_accounts.get? winning_ticket).map (·.id)
    else
      (pos_find winning_ticket 0 hard_accounts).map (·.id)

/- Spec-side description of the election (spec §4.5), stated through
running sums rather than the accumulator walk of the source. -/

/-- The running sums of `staked_cents` (in `u32` arithmetic) starting
from `acc`: entry `i` is the sum of the tickets of accounts `0..=i`. -/
def running_sums (acc : Nat) : List Account → List Nat
  | [] => []
  | a :: rest =>
    let s := u32add acc a.staked_cents
    s :: running_sums s rest

/-- Spec §4.5: with `T > 0` the winner is the first account whose running
sum of `staked_cents` strictly exceeds `w`. -/
def spec_first_exceeding (w : Nat) (accounts : List Account) : Option Account :=
  match (running_sums 0 accounts).findIdx? (fun s => w < s) with
  | none => none
  | some i => accounts.get? i

/-- Spec §4.5: the election as the specification words it.  `T` is the
sum of `staked_cents` over all accounts (a `u32` sum); the RNG is drawn
exactly once; with `T > 0` the winner is the first account (in the
snapshot's ascending-id order) whose running sum strictly exceeds
`w = draw mod T`; with `T == 0` the winner is the account at index
`draw mod N`. -/
def spec_proof_of_stake (next_u32 : Hash → Nat) (accounts : List Account)
    (last_hash : Hash) : Option Nat :=
  let T := accounts.foldl (fun s a => u32add s a.staked_cents) 0
  let draw := next_u32 last_hash
  if T = 0 then
    let N := accounts.length % U32
    if N = 0 then none else (accounts.get? (draw % N)).map (·.id)
  else
    (spec_first_exceeding (draw % T) accounts).map (·.id)

/- ## Validators (src/blockchain/transaction/transaction_validator.rs,
src/blockchain/block/block_validator.rs)

SHA-256 and RSA signature verification come from external crates; the
validators only compare their outputs, so they are abstracted into a
verification environment. -/

/-- The cryptographic environment: `Transaction::calculate_hash` (a pure
function of payload, recipient key, sender key and nonce),
`Block::calculate_hash` (a pure function of timestamp, the transactions'
stored hashes, validator key and previous hash), and
`PublicKey::verify`. -/
structure VEnv where
  calcTsxHash : TransactionPayload → Option PublicKey → Option PublicKey → Nat → Nat
  calcBlockHash : Nat → List Nat → Option PublicKey → Nat → Nat
  verify : PublicKey → Nat → List Nat → Bool

/-- `transaction::ValidateStructureError`. -/
inductive TsxValidateStructureError where
  | MissingSenderAddr
  | MissingRecipientAddr
  | MissingSignature
  | IdenticalSenderRecipientAddrs
  | UnexpectedRecipientAddr
  | InvalidHash
  | InvalidSignature
deriving Repr, DecidableEq

/-- `TransactionValidator::validate_structure`, check for check in source
order. -/
def tsxValidateStructure (env : VEnv) (tsx : Transaction) :
    Except TsxValidateStructureError Unit :=
  if tsx.sndr_addr.isNone then .error .MissingSenderAddr
  else if (!tsx.payload.isStake) && tsx.recp_addr.isNone then .error .MissingRecipientAddr
  else if tsx.sig.isNone then .error .MissingSignature
  else if tsx.payload.isStake && tsx.recp_addr.isSome then .error .UnexpectedRecipientAddr
  else if tsx.sndr_addr = tsx.recp_addr then .error .IdenticalSenderRecipientAddrs
  else if tsx.hash ≠ env.calcTsxHash tsx.payload tsx.recp_addr tsx.sndr_addr tsx.nonce then
    .error .InvalidHash
  else if !(env.verify (tsx.sndr_addr.getD default) tsx.hash (tsx.sig.getD [])) then
    .error .InvalidSignature
  else .ok ()

/-- `block::ValidateStructureError`.  `MissingValidator` is declared in
the source ("The validator should be `Some` but is `None`") — the
theorems below settle whether it is ever produced. -/
inductive BlkValidateStructureError where
  | PartiallyFilledBlock (diff : Nat)
  | OverfilledBlock (diff : Nat)
  | MissingValidator
  | InvalidTimestamp
  | InvalidTransaction (index : Nat) (source : TsxValidateStructureError)
  | InvalidHash
deriving Repr, DecidableEq

/-- The `try_for_each` over the block's transactions, with the
index-preserving error wrapper. -/
def blkValidateTsxs (env : VEnv) (index : Nat) :
    List Transaction → Except BlkValidateStructureError Unit
  | [] => .ok ()
  | tsx :: rest =>
    match tsxValidateStructure env tsx with
    | .error e => .error (.InvalidTransaction index e)
    | .ok _ => blkValidateTsxs env (index + 1) rest

/-- `BlockValidator::validate_structure`, check for check in source
order: the transaction-count comparison against `BLOCK_CAPACITY`
(`abs_diff` in the error payloads), the per-transaction structural
checks, and the hash comparison. -/
def blkValidateStructure (env : VEnv) (blk : Block) :
    Except BlkValidateStructureError Unit :=
  if blk.tsxs.length < BLOCK_CAPACITY then
    .error (.PartiallyFilledBlock (BLOCK_CAPACITY - blk.tsxs.length))
  else if blk.tsxs.length > BLOCK_CAPACITY then
    .error (.OverfilledBlock (blk.tsxs.length - BLOCK_CAPACITY))
  else
    match blkValidateTsxs env 0 blk.tsxs with
    | .error e => .error e
    | .ok _ =>
      if blk.hash ≠ env.calcBlockHash blk.timestamp (blk.tsxs.map (·.hash)) blk.val blk.prev_hash
      then .error .InvalidHash
      else .ok ()

/-- Whether a block-structure validation result is the `MissingValidator`
rejection the specification prescribes for validator-less blocks. -/
def isMissingValidator : Except BlkValidateStructureError Unit → Bool
  | .error .MissingValidator => true
  | _ => false

/- ## Spec-side fee formulas (spec §3, "Fees" / "total_cost")

The formulas as the specification words them, in the `u32` arithmetic of
the data model (`|s|` is the UTF-8 byte length of the message). -/

/-- Spec: Transfer `max(amount * 3 / 100, 1)` cents; Message `|s| * 100`
cents; Stake 0. -/
def spec_fees : TransactionPayload → Nat
  | .Transfer a => max (u32mul a 3 / 100) 1
  | .Message s => u32mul (s.utf8ByteSize % U32) 100
  | .Stake _ => 0

/-- Spec: `total_cost` is amount + fee for Transfer, `|s| + fee` for
Message (the byte length added as if it were cents), amount for Stake. -/
def spec_total_cost (p : TransactionPayload) : Nat :=
  match p with
  | .Transfer a => u32add a (spec_fees p)
  | .Message s => u32add (s.utf8ByteSize % U32) (spec_fees p)
  | .Stake a => a

/-- No `u32` overflow in the total-cost computation of a payload: the
amount (resp. truncated byte length) plus the fee stays below `2^32`. -/
def cost_no_overflow : TransactionPayload → Prop
  | .Transfer a => a % U32 + Transaction.calculate_transfer_fees a < U32
  | .Message s => s.utf8ByteSize % U32 + Transaction.calculate_message_fees s < U32
  | .Stake _ => True

instance : DecidablePred cost_no_overflow := fun p => by
  unfold cost_no_overflow
  cases p <;> infer_instance

/- ## Ledger sums -/

/-- The sum of `held_cents` over all accounts of a catalog (a
mathematical `Nat` sum, not a machine quantity). -/
def heldSum (cat : AccountsCatalog) : Nat :=
  (cat.accounts.map (·.held_cents)).sum

/-- The sum of `staked_cents` over all accounts of a catalog. -/
def stakedSum (cat : AccountsCatalog) : Nat :=
  (cat.accounts.map (·.staked_cents)).sum

/- ## Well-formedness of a block's transactions (used by the ledger
conservation statement) -/

/-- The shape constructed transactions inside a (non-genesis) block have:
a sender is present, and a recipient is present exactly when the payload
is not a Stake. -/
def BlockTsxWF (t : Transaction) : Prop :=
  t.sndr_addr.isSome = true
  ∧ (t.payload.isStake = true → t.recp_addr = none)
  ∧ (t.payload.isStake = false → t.recp_addr.isSome = true)

instance : DecidablePred BlockTsxWF := fun t => by
  unfold BlockTsxWF
  infer_instance

/-- Discriminates the `Ok` constructor of a `Result`. -/
def exceptOk {ε α : Type} : Except ε α → Bool
  | .ok _ => true
  | .error _ => false

/- ## Concrete inputs used by individual theorems below -/

/-- A verification environment with trivial hash and signature
primitives, used to exercise the validators on concrete blocks. -/
def cEnv : VEnv :=
  ⟨fun _ _ _ _ => 0, fun _ _ _ _ => 0, fun _ _ _ => true⟩

/-- A structurally valid transfer transaction under `cEnv`. -/
def cTsx : Transaction :=
  ⟨.Transfer 1, some (0 : Nat), some (1 : Nat), 0, 0, some []⟩

/-- A block with `BLOCK_CAPACITY` structurally valid transactions, a
matching hash under `cEnv`, and **no validator**. -/
def cBlkNoVal : Block :=
  ⟨0, 0, [cTsx, cTsx, cTsx, cTsx, cTsx], none, 0, 0⟩

/-- Three peers with ids 0, 1, 2 and distinct keys. -/
def cPeers : List Peer := [⟨0, (0 : Nat)⟩, ⟨1, (1 : Nat)⟩, ⟨2, (2 : Nat)⟩]

/-- A catalog in which the recipient's balance sits at `u32::MAX`, so
that crediting it wraps. -/
def cCatWrap : AccountsCatalog :=
  { accounts :=
      [⟨0, NoncePool.new, 103, 0⟩, ⟨1, NoncePool.new, 4294967295, 0⟩,
        ⟨2, NoncePool.new, 0, 0⟩]
    peers := cPeers }

/-- A one-transaction block (peer 0 transfers 100 cents to peer 1,
peer 2 validates). -/
def cBlkTransfer : Block :=
  ⟨0, 0, [⟨.Transfer 100, some (0 : Nat), some (1 : Nat), 0, 0, none⟩],
    some (2 : Nat), 0, 0⟩

/-- A small ordinary catalog (no balance near `u32::MAX`). -/
def cCatSmall : AccountsCatalog :=
  { accounts :=
      [⟨0, NoncePool.new, 1000, 0⟩, ⟨1, NoncePool.new, 0, 0⟩,
        ⟨2, NoncePool.new, 0, 0⟩]
    peers := cPeers }

/-- A fixed stand-in for the seeded ChaCha12 draw. -/
def cDraw : Hash → Nat := fun _ => 7

/-- A two-account hard-accounts snapshot with stakes 5 and 3. -/
def cStakers : List Account :=
  [⟨0, NoncePool.new, 0, 5⟩, ⟨1, NoncePool.new, 0, 3⟩]

/-- An abstract last-block hash value. -/
def cHash : Hash := []

/- ## Theorems -/

/-- C6.  For every transaction, `fees()` and `total_cost()` equal the
formulas of the specification (read in the `u32` arithmetic of the data
model): a Transfer of amount `a` has fee `max(a*3/100, 1)` cents and
total cost `a + fee`; a Message with text `s` has fee `|s|*100` cents
and total cost `|s| + fee`, `|s|` being the byte length; a Stake of
amount `a` has fee 0 and total cost `a`.  In particular a transfer of
1000 cents has total cost 1030. -/
theorem transaction_fee_formulas :
    (∀ tsx : Transaction,
      tsx.fees = spec_fees tsx.payload ∧ tsx.total_cost = spec_total_cost tsx.payload)
    ∧ Transaction.total_cost ⟨.Transfer 1000, none, none, 0, 0, none⟩ = 1030 := by
  constructor
  · intro tsx
    obtain ⟨p, s, r, n, h, g⟩ := tsx
    cases p with
    | Transfer a =>
      refine ⟨?_, ?_⟩
      · simp only [Transaction.fees, spec_fees, Transaction.calculate_transfer_fees,
          MINIMUM_TRANSFER_FEE_CENTS, TRANSFER_FEE_PERCENTAGE]
        split_ifs with hf <;> omega
      · simp only [Transaction.total_cost, spec_total_cost,
          Transaction.calculate_transfer_total_cost, spec_fees,
          Transaction.calculate_transfer_fees,
          MINIMUM_TRANSFER_FEE_CENTS, TRANSFER_FEE_PERCENTAGE]
        congr 1
        split_ifs with hf <;> omega
    | Message m => exact ⟨rfl, rfl⟩
    | Stake a => exact ⟨rfl, rfl⟩
  · decide

/-- C9.  Evaluation of the monetary arithmetic at overflowing inputs:
`calculate_transfer_fees(2^31)` multiplies `2^31 * 3 = 6442450944`,
which wraps to `2147483648` mod `2^32`, giving fee `21474836` instead of
the unreduced `6442450944 / 100 = 64424509`; `add_held` at a balance of
`u32::MAX` wraps to 0, and so does `add_staked`.  The release-profile
code returns results reduced mod `2^32` instead of signalling overflow
(debug builds abort). -/
theorem monetary_arithmetic_wraps :
    Transaction.calculate_transfer_fees 2147483648 = 21474836
    ∧ 2147483648 * 3 / 100 = 64424509
    ∧ (Account.add_held ⟨0, NoncePool.new, 4294967295, 0⟩ 1).held_cents = 0
    ∧ (Account.add_staked ⟨0, NoncePool.new, 0, 4294967295⟩ 1).staked_cents = 0 := by
  refine ⟨by decide, by decide, by decide, by decide⟩

/-- C10 (counterexample).  At a Transfer of amount `u32::MAX` the fee
computation gives `42949672` while the (wrapping) total-cost computation
gives `42949671`, so `fees() ≤ total_cost()` fails, and the subtraction
`total_cost - fees` performed by `process_transaction` wraps to
`u32::MAX`. -/
theorem fees_le_total_cost_counterexample :
    Transaction.fees ⟨.Transfer 4294967295, none, none, 0, 0, none⟩ = 42949672
    ∧ Transaction.total_cost ⟨.Transfer 4294967295, none, none, 0, 0, none⟩ = 42949671
    ∧ Nat.blt (Transaction.total_cost ⟨.Transfer 4294967295, none, none, 0, 0, none⟩)
        (Transaction.fees ⟨.Transfer 4294967295, none, none, 0, 0, none⟩) = true
    ∧ u32sub (Transaction.total_cost ⟨.Transfer 4294967295, none, none, 0, 0, none⟩)
        (Transaction.fees ⟨.Transfer 4294967295, none, none, 0, 0, none⟩) = 4294967295 := by
  refine ⟨by decide, by decide, by decide, by decide⟩

/-- C10 (amended).  For every transaction whose total-cost computation
does not overflow `u32` (which holds for every Stake, and for Transfers
and Messages whenever amount-plus-fee stays below `2^32`),
`fees() ≤ total_cost()`, so the subtraction `total_cost - fees` cannot
underflow. -/
theorem fees_le_total_cost_of_no_overflow (tsx : Transaction)
    (h : cost_no_overflow tsx.payload) : tsx.fees ≤ tsx.total_cost := by
  obtain ⟨p, s, r, n, hh, g⟩ := tsx
  cases p with
  | Transfer a =>
    simp only [cost_no_overflow] at h
    have hfee : Transaction.calculate_transfer_fees a % U32
        = Transaction.calculate_transfer_fees a := by
      apply Nat.mod_eq_of_lt
      simp only [Transaction.calculate_transfer_fees, u32mul, U32,
        MINIMUM_TRANSFER_FEE_CENTS, TRANSFER_FEE_PERCENTAGE]
      split_ifs with hf <;> omega
    show Transaction.calculate_transfer_fees a
      ≤ u32add a (Transaction.calculate_transfer_fees a)
    rw [u32add, Nat.add_mod, hfee, Nat.mod_eq_of_lt (hfee ▸ h)]
    exact Nat.le_add_left _ _
  | Message m =>
    simp only [cost_no_overflow] at h
    have hfee : Transaction.calculate_message_fees m % U32
        = Transaction.calculate_message_fees m := by
      apply Nat.mod_eq_of_lt
      simp only [Transaction.calculate_message_fees, u32mul, U32]
      omega
    show Transaction.calculate_message_fees m
      ≤ u32add (m.utf8ByteSize % U32) (Transaction.calculate_message_fees m)
    rw [u32add, Nat.add_mod, hfee]
    simp only [U32] at h ⊢
    omega
  | Stake a =>
    simp only [Transaction.fees, Transaction.total_cost,
      Transaction.calculcate_stake_fees, Transaction.calculate_stake_total_cost]
    exact Nat.zero_le _

/-- C10 (witness): the amended statement applied to a transfer of 1000
cents, whose cost arithmetic does not overflow. -/
theorem fees_le_total_cost_witness :
    cost_no_overflow (TransactionPayload.Transfer 1000)
    ∧ Transaction.fees ⟨.Transfer 1000, none, none, 0, 0, none⟩
        ≤ Transaction.total_cost ⟨.Transfer 1000, none, none, 0, 0, none⟩ :=
  ⟨by decide, fees_le_total_cost_of_no_overflow ⟨.Transfer 1000, none, none, 0, 0, none⟩
    (by decide)⟩

/-- Helper: the recipient half of `process_transaction` agrees with the
spec's description of the recipient effect. -/
theorem process_recipient_eq_spec (cat : AccountsCatalog) (tsx : Transaction) :
    cat.process_recipient tsx = cat.spec_recipient_effects tsx := by
  unfold AccountsCatalog.process_recipient AccountsCatalog.spec_recipient_effects
  cases tsx.recp_addr with
  | none => rfl
  | some addr =>
    cases cat.lookup addr with
    | none => rfl
    | some ja => rfl

/-- Helper: `process_transaction` agrees with the spec's description of
its effects, on every catalog and every transaction. -/
theorem process_transaction_eq_spec (cat : AccountsCatalog) (tsx : Transaction) :
    cat.process_transaction tsx = cat.spec_process_transaction tsx := by
  unfold AccountsCatalog.process_transaction AccountsCatalog.spec_process_transaction
  cases hs : tsx.sndr_addr with
  | none => exact process_recipient_eq_spec cat tsx
  | some addr =>
    cases hl : cat.lookup addr with
    | none => simp only [hl]
    | some ia =>
      obtain ⟨i, s⟩ := ia
      simp only [hl, Account.sub_held]
      by_cases h1 : tsx.total_cost > s.held_cents
      · rw [if_pos h1, if_pos h1]
      · rw [if_neg h1, if_neg h1]
        show (cat.setAccount i _).process_recipient tsx = _
        rw [process_recipient_eq_spec]
        unfold AccountsCatalog.spec_sender_effects
        cases hp : tsx.payload.isStake <;> simp [hp, Account.add_staked]

/-- C1.  For every catalog and transaction, `process_transaction`
applies exactly the effects described by the specification
(`spec_process_transaction`, written from the spec's words): it debits
`total_cost` from the sender's held cents, credits `total_cost − fees`
to the sender's staked cents iff the payload is Stake, marks the
sender's nonce used, and credits `total_cost − fees` to the recipient's
held cents iff a recipient is present; a genesis transaction (no
sender) skips all sender effects; if the debit fails it returns `Err`
with the sender's account id and `InsufficientFunds`, and the catalog is
returned unchanged.  The equality is unconditional (both sides model the
`unwrap()` panic on an unresolvable key as `none`), so in particular it
covers every transaction whose present keys resolve. -/
theorem process_transaction_applies_spec_effects
    (cat : AccountsCatalog) (tsx : Transaction) :
    cat.process_transaction tsx = cat.spec_process_transaction tsx :=
  process_transaction_eq_spec cat tsx

/-- Helper: the block-processing loop agrees with the spec-side fold of
per-transaction effects plus validator fee credits. -/
theorem process_block_go_eq_spec (val : Option PublicKey) :
    ∀ (l : List Transaction) (cat : AccountsCatalog),
      AccountsCatalog.process_block_go val cat l
        = AccountsCatalog.spec_block_effects val cat l
  | [], _ => rfl
  | tsx :: rest, cat => by
    unfold AccountsCatalog.process_block_go AccountsCatalog.spec_block_effects
    rw [← process_transaction_eq_spec]
    split
    · rfl
    · rfl
    · rename_i cat1 heq
      cases val with
      | none => exact process_block_go_eq_spec none rest _
      | some v =>
        split
        · rename_i hcontra
          exact absurd hcontra (by simp)
        · split
          · rfl
          · exact process_block_go_eq_spec (some v) rest _

/-- C2.  `process_block` is transactional across the whole block: when
it returns an error (some transaction failed), the catalog it leaves
behind is exactly the input catalog; only when every transaction
succeeds does it return the catalog carrying the combined effects — the
spec-side fold `spec_block_effects`, which applies each transaction's
specified effects and credits each transaction's fees to the block
validator's held cents when a validator is present. -/
theorem process_block_transactional (cat : AccountsCatalog) (blk : Block) :
    match cat.process_block blk with
    | none => True
    | some (.error _, cat2) => cat2 = cat
    | some (.ok _, cat') =>
        AccountsCatalog.spec_block_effects blk.val cat blk.tsxs = some (.ok cat') := by
  unfold AccountsCatalog.process_block
  rw [process_block_go_eq_spec]
  cases AccountsCatalog.spec_block_effects blk.val cat blk.tsxs with
  | none => exact trivial
  | some r =>
    cases r with
    | error e => exact rfl
    | ok cat' => exact rfl

/-- Helper: the accumulator walk of the source equals "first index whose
running sum exceeds the ticket" on the running-sums list. -/
theorem pos_find_eq_first_exceeding (w : Nat) :
    ∀ (l : List Account) (acc : Nat),
      pos_find w acc l
        = match (running_sums acc l).findIdx? (fun s => decide (w < s)) with
          | none => none
          | some i => l.get? i
  | [], _ => rfl
  | a :: rest, acc => by
    unfold pos_find running_sums
    simp only [List.findIdx?_cons, List.findIdx?_succ, calculate_tickets]
    by_cases hw : w < u32add acc a.staked_cents
    · rw [if_pos hw]
      simp [hw]
    · rw [if_neg hw]
      rw [pos_find_eq_first_exceeding w rest (u32add acc a.staked_cents)]
      cases hfi : (running_sums (u32add acc a.staked_cents) rest).findIdx?
          (fun s => decide (w < s)) with
      | none => simp [hfi, hw]
      | some i => simp [hfi, hw, List.get?]

/-- C3.  For every hard-accounts snapshot and every last block hash,
`proof_of_stake` elects the validator exactly as the specification
describes (`spec_proof_of_stake`): with `T` the (`u32`) sum of
`staked_cents`, the seeded RNG is drawn exactly once; with `T > 0` the
winner is the first account in the snapshot's ascending-id order whose
running sum of `staked_cents` strictly exceeds `w = draw mod T`; with
`T == 0` every account gets one ticket and the winner is the account at
index `draw mod N`.  The ChaCha12 seed-and-draw is the abstract
parameter `next_u32`, a fixed pure function of the 32-byte hash. -/
theorem proof_of_stake_matches_spec (next_u32 : Hash → Nat)
    (hard_accounts : List Account) (last_hash : Hash) :
    proof_of_stake next_u32 hard_accounts last_hash
      = spec_proof_of_stake next_u32 hard_accounts last_hash := by
  unfold proof_of_stake spec_proof_of_stake
  by_cases hz :
      hard_accounts.foldl (fun s a => u32add s (calculate_tickets a.staked_cents)) 0 = 0
  · simp only [calculate_tickets] at hz ⊢
    simp only [hz, if_pos]
  · simp only [calculate_tickets] at hz ⊢
    simp only [hz, if_neg, if_false]
    unfold spec_first_exceeding
    rw [pos_find_eq_first_exceeding]

/-- C8.  Validator-election determinism: two runs of `proof_of_stake`
given identical hard-accounts snapshots and identical last block hashes
(and the same build, hence the same seeded ChaCha12 draw function)
return the identical next-validator id. -/
theorem proof_of_stake_deterministic (next_u32 : Hash → Nat)
    (a1 a2 : List Account) (h1 h2 : Hash)
    (haccs : a1 = a2) (hhash : h1 = h2) :
    proof_of_stake next_u32 a1 h1 = proof_of_stake next_u32 a2 h2 := by
  subst haccs
  subst hhash
  rfl

/-- C8 (witness): determinism applied to a concrete snapshot and hash. -/
theorem proof_of_stake_deterministic_witness :
    proof_of_stake cDraw cStakers cHash = proof_of_stake cDraw cStakers cHash :=
  proof_of_stake_deterministic cDraw cStakers cStakers cHash cHash rfl rfl

/-- Helper: the per-transaction loop of the block structural validator
only ever produces `InvalidTransaction` errors. -/
theorem blkValidateTsxs_no_missing (env : VEnv) :
    ∀ (l : List Transaction) (i : Nat),
      isMissingValidator (blkValidateTsxs env i l) = false
  | [], _ => rfl
  | tsx :: rest, i => by
    unfold blkValidateTsxs
    cases tsxValidateStructure env tsx with
    | error e => rfl
    | ok u => exact blkValidateTsxs_no_missing env rest (i + 1)

/-- C4.  `BlockValidator::validate_structure` never returns the
`MissingValidator` error (for any environment and any block), and it
accepts the concrete block `cBlkNoVal`, which has exactly
`BLOCK_CAPACITY` structurally valid transactions, a matching hash and
**no validator**.  The check the specification lists second ("validator
present") is not performed. -/
theorem validate_structure_ignores_missing_validator :
    (∀ (env : VEnv) (blk : Block),
      isMissingValidator (blkValidateStructure env blk) = false)
    ∧ blkValidateStructure cEnv cBlkNoVal = .ok ()
    ∧ cBlkNoVal.val = none := by
  refine ⟨?_, rfl, rfl⟩
  intro env blk
  unfold blkValidateStructure
  split_ifs with h1 h2 h3
  · rfl
  · rfl
  · cases hv : blkValidateTsxs env 0 blk.tsxs with
    | error e =>
      have hm := blkValidateTsxs_no_missing env blk.tsxs 0
      rw [hv] at hm
      exact hm
    | ok u => rfl
  · cases hv : blkValidateTsxs env 0 blk.tsxs with
    | error e =>
      have hm := blkValidateTsxs_no_missing env blk.tsxs 0
      rw [hv] at hm
      exact hm
    | ok u => rfl

/-- C5 (counterexample).  On a fresh pool, `mark_used(u64::MAX)` drives
`iter` to `2^59`, so `next()`'s `usize` computation `iter * 32 + buf_end`
wraps to 0 (release profile): the nonce is reported used, but
`next() > n` fails. -/
theorem nonce_pool_next_counterexample :
    (NoncePool.new.mark_used 18446744073709551615).is_marked_used 18446744073709551615
      = true
    ∧ (NoncePool.new.mark_used 18446744073709551615).next = 0
    ∧ Nat.blt 18446744073709551615 (NoncePool.new.mark_used 18446744073709551615).next
      = false := by
  refine ⟨by decide, by decide, by decide⟩

/-- Helper: after `mark_used(n)`, `is_marked_used(n)` reports true, on
every pool state (reachable or not). -/
theorem nonce_pool_mark_used_marks (p : NoncePool) (n : Nat) :
    (p.mark_used n).is_marked_used n = true := by
  obtain ⟨it, be, f⟩ := p
  unfold NoncePool.mark_used
  dsimp only
  split_ifs with h1 h2 h3 h4 h5 h6 h7 h8 h9 h10 <;>
  · unfold NoncePool.is_marked_used
    dsimp only
    split_ifs with d1 d2 d3 <;>
      simp only [NoncePool.setBuf, NoncePool.clearRange, Bool.and_eq_true,
        Bool.or_eq_true, decide_eq_true_eq, BUF_LEN] at * <;>
      first
        | rfl
        | omega
        | (left; omega)
        | (exact absurd trivial d3)
        | (simp <;> omega)

/-- Helper: after `mark_used(n)`, `next()` is strictly greater than `n`,
provided the `usize` expression `iter * BUF_LEN + buf_end` of the
post-mark state does not wrap around `2^64`. -/
theorem nonce_pool_mark_used_next (p : NoncePool) (n : Nat)
    (hov : (p.mark_used n).iter * BUF_LEN + (p.mark_used n).buf_end < U64) :
    n < (p.mark_used n).next := by
  obtain ⟨it, be, f⟩ := p
  unfold NoncePool.mark_used at hov ⊢
  unfold NoncePool.next
  dsimp only at hov ⊢
  simp only [BUF_LEN, U64] at hov ⊢
  split_ifs at hov ⊢ with h1 h2 h3 h4 h5 h6 h7 h8 h9 h10 <;>
    dsimp only at hov ⊢ <;> omega

/-- C5 (amended).  For every pool state (in particular every reachable
one) and every nonce `n`: immediately after `mark_used(n)`,
`is_marked_used(n)` returns true, and — provided the post-mark `usize`
expression `iter * BUF_LEN + buf_end` stays below `2^64`, which holds
for every `n < u64::MAX` reached from a fresh pool — `next()` returns a
value strictly greater than `n`. -/
theorem nonce_pool_mark_used_spec (p : NoncePool) (n : Nat)
    (hov : (p.mark_used n).iter * BUF_LEN + (p.mark_used n).buf_end < U64) :
    (p.mark_used n).is_marked_used n = true ∧ n < (p.mark_used n).next :=
  ⟨nonce_pool_mark_used_marks p n, nonce_pool_mark_used_next p n hov⟩

/-- C5 (witness): the amended statement applied to a fresh pool and
nonce 0. -/
theorem nonce_pool_mark_used_spec_witness :
    ((NoncePool.new.mark_used 0).iter * BUF_LEN + (NoncePool.new.mark_used 0).buf_end
      < U64)
    ∧ ((NoncePool.new.mark_used 0).is_marked_used 0 = true
      ∧ 0 < (NoncePool.new.mark_used 0).next) :=
  ⟨by decide, nonce_pool_mark_used_spec NoncePool.new 0 (by decide)⟩

/-- Helper: replacing element `i` of a list changes a mapped sum by
swapping the contribution of the old element for the new one. -/
theorem sum_map_set_add {α : Type} (g : α → Nat) :
    ∀ (l : List α) (i : Nat) (a b : α), l.get? i = some a →
      ((l.set i b).map g).sum + g a = (l.map g).sum + g b
  | [], i, a, b, h => by simp [List.get?] at h
  | x :: xs, 0, a, b, h => by
    simp [List.get?] at h
    subst h
    simp [List.set]
    omega
  | x :: xs, i + 1, a, b, h => by
    simp only [List.get?] at h
    have ih := sum_map_set_add g xs i a b h
    simp only [List.set, List.map, List.sum_cons]
    omega

/-- The total ledger mass of a catalog — held plus staked cents over all
accounts — as a residue mod `2^32`. -/
def totalZ (cat : AccountsCatalog) : ZMod U32 :=
  ((heldSum cat + stakedSum cat : ℕ) : ZMod U32)

/-- Helper: writing account `b` over account `a` (at index `i`) shifts
the total ledger mass by the difference of their balances. -/
theorem totalZ_setAccount (cat : AccountsCatalog) (i : Nat) (a b : Account)
    (h : cat.accounts.get? i = some a) :
    totalZ (cat.setAccount i b)
      = totalZ cat + (((b.held_cents + b.staked_cents : ℕ) : ZMod U32)
        - ((a.held_cents + a.staked_cents : ℕ) : ZMod U32)) := by
  have h1 := sum_map_set_add (·.held_cents) cat.accounts i a b h
  have h2 := sum_map_set_add (·.staked_cents) cat.accounts i a b h
  have hNat : (heldSum (cat.setAccount i b) + stakedSum (cat.setAccount i b))
      + (a.held_cents + a.staked_cents)
      = (heldSum cat + stakedSum cat) + (b.held_cents + b.staked_cents) := by
    unfold heldSum stakedSum AccountsCatalog.setAccount at *
    dsimp only at *
    omega
  have hz := congrArg (fun k : ℕ => (k : ZMod U32)) hNat
  push_cast at hz
  unfold totalZ
  push_cast
  linear_combination hz

/-- Helper: a successful `lookup` returns the account stored at the
returned index. -/
theorem lookup_get (cat : AccountsCatalog) (k : PublicKey) (i : Nat) (a : Account)
    (h : cat.lookup k = some (i, a)) : cat.accounts.get? i = some a := by
  unfold AccountsCatalog.lookup AccountsCatalog.get_by_id at h
  cases hp : peersGetByPublKey cat.peers k with
  | none => rw [hp] at h; exact absurd h (by simp)
  | some p =>
    rw [hp] at h
    dsimp only at h
    cases hg : cat.accounts.get? p.id with
    | none => rw [hg] at h; exact absurd h (by simp)
    | some a' =>
      rw [hg] at h
      simp at h
      obtain ⟨hi, ha⟩ := h
      subst hi
      subst ha
      exact hg

/-- Helper: every fee amount is a `u32` value. -/
theorem fees_lt_u32 (tsx : Transaction) : tsx.fees < U32 := by
  obtain ⟨p, s, r, n, h, g⟩ := tsx
  cases p with
  | Transfer a =>
    show Transaction.calculate_transfer_fees a < U32
    simp only [Transaction.calculate_transfer_fees, u32mul, U32,
      MINIMUM_TRANSFER_FEE_CENTS, TRANSFER_FEE_PERCENTAGE]
    split_ifs <;> omega
  | Message m =>
    show Transaction.calculate_message_fees m < U32
    simp only [Transaction.calculate_message_fees, u32mul, U32]
    omega
  | Stake a =>
    show Transaction.calculcate_stake_fees a < U32
    simp only [Transaction.calculcate_stake_fees, U32]
    omega

/-- Helper: cast of a wrapping `u32` addition. -/
theorem zcast_u32add (a b : Nat) : ((u32add a b : ℕ) : ZMod U32) = a + b := by
  unfold u32add
  rw [ZMod.natCast_mod]
  push_cast
  ring

/-- Helper: cast of a wrapping `u32` subtraction. -/
theorem zcast_u32sub (a b : Nat) : ((u32sub a b : ℕ) : ZMod U32) = (a : ZMod U32) - b := by
  unfold u32sub
  rw [ZMod.natCast_mod]
  have hb : b % U32 ≤ a % U32 + U32 :=
    le_trans (le_of_lt (Nat.mod_lt _ (by norm_num [U32]))) (by omega)
  rw [Nat.cast_sub hb]
  push_cast
  rw [ZMod.natCast_self, ZMod.natCast_mod, ZMod.natCast_mod]
  ring

/-- Helper: ledger-mass change of the spec's sender effects. -/
theorem spec_sender_totalZ (cat : AccountsCatalog) (tsx : Transaction) (i : Nat) (s : Account)
    (hg : cat.accounts.get? i = some s) (hfunds : tsx.total_cost ≤ s.held_cents) :
    totalZ (cat.setAccount i (AccountsCatalog.spec_sender_effects tsx s))
      = totalZ cat - (tsx.total_cost : ZMod U32)
        + (if tsx.payload.isStake = true
            then (tsx.total_cost : ZMod U32) - (tsx.fees : ZMod U32) else 0) := by
  rw [totalZ_setAccount cat i s _ hg]
  unfold AccountsCatalog.spec_sender_effects
  have hsub : ((s.held_cents - tsx.total_cost : ℕ) : ZMod U32)
      = (s.held_cents : ZMod U32) - tsx.total_cost := by
    rw [Nat.cast_sub hfunds]
  cases hstk : tsx.payload.isStake
  · simp only [hstk, Bool.false_eq_true, if_false]
    push_cast
    rw [hsub]
    ring
  · simp only [hstk, if_true]
    push_cast
    rw [hsub, zcast_u32add, zcast_u32sub]
    ring

/-- Helper: with no recipient the recipient phase leaves the catalog
untouched. -/
theorem spec_recipient_totalZ_none (cat : AccountsCatalog) (tsx : Transaction)
    (cat1 : AccountsCatalog) (hr : tsx.recp_addr = none)
    (h : cat.spec_recipient_effects tsx = some (.ok (), cat1)) : cat1 = cat := by
  unfold AccountsCatalog.spec_recipient_effects at h
  rw [hr] at h
  simp at h
  exact h.symm

/-- Helper: ledger-mass change of the recipient credit. -/
theorem spec_recipient_totalZ_some (cat : AccountsCatalog) (tsx : Transaction)
    (cat1 : AccountsCatalog) (raddr : PublicKey) (hr : tsx.recp_addr = some raddr)
    (h : cat.spec_recipient_effects tsx = some (.ok (), cat1)) :
    totalZ cat1 = totalZ cat + ((tsx.total_cost : ZMod U32) - (tsx.fees : ZMod U32)) := by
  unfold AccountsCatalog.spec_recipient_effects at h
  rw [hr] at h
  dsimp only at h
  cases hl : cat.lookup raddr with
  | none => rw [hl] at h; exact absurd h (by simp)
  | some ja =>
    obtain ⟨j, r⟩ := ja
    rw [hl] at h
    dsimp only at h
    simp at h
    rw [← h]
    rw [totalZ_setAccount cat j r _ (lookup_get cat raddr j r hl)]
    dsimp only
    push_cast
    rw [zcast_u32add, zcast_u32sub]
    ring

/-- Helper: a successful `process_transaction` moves exactly the fees
out of the ledger mass (they are re-credited to the validator by
`process_block`). -/
theorem process_transaction_totalZ (cat : AccountsCatalog) (tsx : Transaction)
    (hwf : BlockTsxWF tsx) (cat1 : AccountsCatalog)
    (h : cat.process_transaction tsx = some (.ok (), cat1)) :
    totalZ cat1 = totalZ cat - (tsx.fees : ZMod U32) := by
  obtain ⟨hs, hstake, hnostake⟩ := hwf
  rw [process_transaction_eq_spec] at h
  cases hsa : tsx.sndr_addr with
  | none => rw [hsa] at hs; simp at hs
  | some addr =>
    unfold AccountsCatalog.spec_process_transaction at h
    rw [hsa] at h
    dsimp only at h
    cases hl : cat.lookup addr with
    | none => rw [hl] at h; exact absurd h (by simp)
    | some ia =>
      obtain ⟨i, s⟩ := ia
      rw [hl] at h
      dsimp only at h
      by_cases hfunds : tsx.total_cost > s.held_cents
      · rw [if_pos hfunds] at h
        exact absurd h (by simp)
      · rw [if_neg hfunds] at h
        have hsend := spec_sender_totalZ cat tsx i s (lookup_get cat addr i s hl)
          (Nat.le_of_not_lt hfunds)
        cases hstk : tsx.payload.isStake
        · have hrs := hnostake hstk
          cases hra : tsx.recp_addr with
          | none => rw [hra] at hrs; simp at hrs
          | some raddr =>
            have hrec := spec_recipient_totalZ_some _ tsx cat1 raddr hra h
            rw [hrec, hsend]
            simp only [hstk, Bool.false_eq_true, if_false]
            ring
        · have hra := hstake hstk
          have hnone := spec_recipient_totalZ_none _ tsx cat1 hra h
          rw [hnone, hsend]
          simp only [hstk, if_true]
          ring

/-- Helper: ledger-mass change of the validator fee credit. -/
theorem validator_credit_totalZ (cat : AccountsCatalog) (j : Nat) (a : Account)
    (hg : cat.accounts.get? j = some a) (amnt : Nat) :
    totalZ (cat.setAccount j (a.add_held amnt)) = totalZ cat + (amnt : ZMod U32) := by
  rw [totalZ_setAccount cat j a _ hg]
  unfold Account.add_held
  push_cast
  rw [zcast_u32add]
  ring

/-- Helper: a successful block-processing loop preserves the total
ledger mass held + staked, mod `2^32`. -/
theorem process_block_go_totalZ (v : PublicKey) :
    ∀ (l : List Transaction) (cat cat' : AccountsCatalog),
      (∀ t ∈ l, BlockTsxWF t) →
      AccountsCatalog.process_block_go (some v) cat l = some (.ok cat') →
      totalZ cat' = totalZ cat
  | [], cat, cat', _, h => by
    unfold AccountsCatalog.process_block_go at h
    simp at h
    rw [h]
  | tsx :: rest, cat, cat', hwf, h => by
    unfold AccountsCatalog.process_block_go at h
    cases hpt : cat.process_transaction tsx with
    | none => rw [hpt] at h; exact absurd h (by simp)
    | some rc =>
      obtain ⟨res, cat1⟩ := rc
      rw [hpt] at h
      dsimp only at h
      cases res with
      | error e => exact absurd h (by simp)
      | ok u =>
        cases u
        dsimp only at h
        cases hlv : cat1.lookup v with
        | none => rw [hlv] at h; exact absurd h (by simp)
        | some ja =>
          obtain ⟨j, a⟩ := ja
          rw [hlv] at h
          dsimp only at h
          have hrest := process_block_go_totalZ v rest _ cat'
            (fun t ht => hwf t (List.mem_cons_of_mem _ ht)) h
          have hstep := process_transaction_totalZ cat tsx
            (hwf tsx (List.mem_cons_self _ _)) cat1 hpt
          have hval := validator_credit_totalZ cat1 j a (lookup_get cat1 v j a hlv) tsx.fees
          rw [hrest, hval, hstep]
          ring

/-- C7 (counterexample).  Exact ledger conservation fails when a credit
wraps: in `cCatWrap` (held sums to `2^32 + 102`) processing the
one-transfer block `cBlkTransfer` succeeds and leaves a held sum of
`102`, not `2^32 + 102 − 0`: the recipient's balance wrapped past
`u32::MAX`. -/
theorem ledger_conservation_counterexample :
    (cCatWrap.process_block cBlkTransfer).map
        (fun r => (exceptOk r.1, heldSum r.2, stakedSum r.2)) = some (true, 102, 0)
    ∧ heldSum cCatWrap = 4294967398
    ∧ stakedSum cCatWrap = 0
    ∧ Nat.beq 102 (4294967398 - (0 - 0)) = false := by
  refine ⟨by decide, by decide, by decide, by decide⟩

/-- C7 (amended).  Ledger conservation holds as a congruence mod `2^32`
(and hence exactly whenever no balance addition wraps): for every
catalog and every block with a validator whose transactions all have a
sender and have a recipient exactly when they are not stakes, if
`process_block` succeeds then the sum of held cents afterwards is, mod
`2^32`, the sum before minus the amount moved to staked by the block. -/
theorem process_block_conserves_ledger (cat : AccountsCatalog) (blk : Block)
    (hval : blk.val.isSome = true)
    (htx : ∀ t ∈ blk.tsxs, BlockTsxWF t) :
    match cat.process_block blk with
    | some (.ok _, cat') =>
        ((heldSum cat' : ℕ) : ZMod U32)
          = ((heldSum cat : ℕ) : ZMod U32)
            - (((stakedSum cat' : ℕ) : ZMod U32) - ((stakedSum cat : ℕ) : ZMod U32))
    | _ => True := by
  cases hv : blk.val with
  | none => rw [hv] at hval; simp at hval
  | some v =>
    unfold AccountsCatalog.process_block
    rw [hv]
    cases hg : AccountsCatalog.process_block_go (some v) cat blk.tsxs with
    | none => exact trivial
    | some r =>
      cases r with
      | error e => exact trivial
      | ok cat' =>
        dsimp only
        have ht := process_block_go_totalZ v blk.tsxs cat cat' htx hg
        unfold totalZ at ht
        push_cast at ht ⊢
        linear_combination ht

/-- C7 (witness): the amended statement applied to a concrete catalog
and one-transfer block for which `process_block` succeeds. -/
theorem process_block_conserves_ledger_witness :
    cBlkTransfer.val.isSome = true
    ∧ BlockTsxWF ⟨.Transfer 100, some (0 : Nat), some (1 : Nat), 0, 0, none⟩
    ∧ (match cCatSmall.process_block cBlkTransfer with
       | some (.ok _, cat') =>
          ((heldSum cat' : ℕ) : ZMod U32)
            = ((heldSum cCatSmall : ℕ) : ZMod U32)
              - (((stakedSum cat' : ℕ) : ZMod U32)
                - ((stakedSum cCatSmall : ℕ) : ZMod U32))
       | _ => True) :=
  ⟨rfl, by decide,
    process_block_conserves_ledger cCatSmall cBlkTransfer rfl
      (by
        intro t ht
        simp only [cBlkTransfer, List.mem_singleton] at ht
        subst ht
        decide)⟩
